import Mathlib

/-!
Verification of GambleCodezPostHelper (a Telegram referral-link bot,
`src/main.py`) against its natural-language specification.

The Python code is shallowly embedded: the registry `links_db`
(a Python `dict[str, dict[str, str]]`) becomes an ordered association
list, handlers become pure functions from the incoming message text and
registry to a new registry plus a list of observable effects (replies,
saves, message edits), and the JSON persistence layer (`json.dump` with
`indent=2, ensure_ascii=False`, and `json.load`) is modelled character
by character.
-/

namespace GambleCodez

/-! ## Registry data model

`links_db` is a Python dict mapping a URL string to an entry dict such as
`{"label": "X"}`.  Python dicts preserve insertion order, so both levels
are modelled as ordered association lists. -/

/-- Inner entry dict of a registry value, e.g. `[("label", "X")]`. -/
abbrev Entry := List (String × String)

/-- The `links_db` registry: insertion-ordered map from URL to entry. -/
abbrev Registry := List (String × Entry)

/-- Association-list lookup (first matching key), modelling `d[k]` /
`d.get(k)` on a Python dict represented as an ordered pair list. -/
def lookupA {α : Type} : List (String × α) → String → Option α
  | [], _ => none
  | (k', v) :: rest, k => if k' = k then some v else lookupA rest k

/-- Python dict assignment `d[k] = v`: updates the value in place when the
key is present (keeping its position), otherwise appends at the end. -/
def dictInsert {α : Type} : List (String × α) → String → α → List (String × α)
  | [], k, v => [(k, v)]
  | (k', v') :: rest, k, v =>
      if k' = k then (k, v) :: rest else (k', v') :: dictInsert rest k v

/-- Python `del d[k]` for a dict without duplicate keys. -/
def dictRemove {α : Type} : List (String × α) → String → List (String × α)
  | [], _ => []
  | (k', v') :: rest, k =>
      if k' = k then rest else (k', v') :: dictRemove rest k

/-- The key sequence of a dict, in iteration (insertion) order. -/
def dictKeys {α : Type} (m : List (String × α)) : List String := m.map Prod.fst

/-! ## String helpers shared by the handlers -/

/-- Python `s.replace(c, rep)` for a single-character pattern: every
occurrence of `c` is replaced by `rep`, left to right. -/
def replaceChar (s : String) (c : Char) (rep : String) : String :=
  String.mk (s.data.foldr (fun a acc => if a = c then rep.data ++ acc else a :: acc) [])

/-- Embeds `escape_html` (src/main.py:77-81): empty text maps to `""`;
otherwise `text.replace("&", "&amp").replace("<", "&lt;").replace(">", "&gt;")`.
Note the source really writes `"&amp"` without a terminating semicolon. -/
def escape_html (text : String) : String :=
  if text = "" then ""
  else replaceChar (replaceChar (replaceChar text '&' "&amp") '<' "&lt;") '>' "&gt;"

/-- Embeds `is_admin` (src/main.py:83-85): membership in `ADMIN_IDS`. -/
def is_admin (admin_ids : List Int) (user_id : Int) : Bool :=
  admin_ids.contains user_id

/-! ## Delivery loop backoff (src/main.py:391-419)

`main` runs `while retry_count < max_retries`, and on an exception
increments `retry_count` and, only when still `retry_count < max_retries`,
sleeps `min(60, 2 ** retry_count)` before the next attempt. -/

/-- Wait computed at src/main.py:412: `min(60, 2 ** retry_count)`. -/
def backoffWait (attempt : Nat) : Nat := min 60 (2 ^ attempt)

/-- Simulates `main`'s retry loop when every polling attempt raises a
connection-level error: from state `retry_count` with limit `max_retries`,
returns the number of polling attempts still performed and the sequence of
waits slept between them, following src/main.py:396-419 line by line. -/
def mainRetryRun (retry_count max_retries : Nat) : Nat × List Nat :=
  if h : retry_count < max_retries then
    if retry_count + 1 < max_retries then
      let t := mainRetryRun (retry_count + 1) max_retries
      (t.1 + 1, backoffWait (retry_count + 1) :: t.2)
    else
      (1, [])
  else
    (0, [])
termination_by max_retries - retry_count
decreasing_by omega

/-! ## Python string primitives

The whitespace predicates model the ASCII fragment of Python's default
whitespace; all strings handled by the claims, and all constant strings in
the source, are covered by it. -/

/-- Concatenation of a list of strings (Python `+=` accumulation). -/
def strConcat : List String → String
  | [] => ""
  | s :: rest => s ++ strConcat rest

/-- ASCII whitespace as recognized by Python's `str.strip`/`str.split`. -/
def pyWs (c : Char) : Bool :=
  c = ' ' || c = '\t' || c = '\n' || c = '\r' || c = '\x0b' || c = '\x0c'

/-- Python `s.strip()`: drop whitespace from both ends. -/
def pyStrip (l : List Char) : List Char :=
  ((l.dropWhile pyWs).reverse.dropWhile pyWs).reverse

/-- Python `s.split(maxsplit=max)` with the default separator: skip leading
whitespace; while splits remain, emit the run up to the next whitespace and
continue after it; once `max` splits are used the rest (leading whitespace
stripped) is the final element, and pure-whitespace tails produce nothing. -/
def pySplitMax : Nat → List Char → List (List Char)
  | max, l =>
    let l' := l.dropWhile pyWs
    if l' = [] then []
    else
      match max with
      | 0 => [l']
      | m + 1 =>
          l'.takeWhile (fun c => !pyWs c) ::
            pySplitMax m (l'.dropWhile (fun c => !pyWs c))

/-- Helper for `pySplitlines`: accumulates the current line reversed. -/
def splitlinesAux : List Char → List Char → List (List Char)
  | cur, [] => if cur = [] then [] else [cur.reverse]
  | cur, '\r' :: '\n' :: rest => cur.reverse :: splitlinesAux [] rest
  | cur, '\n' :: rest => cur.reverse :: splitlinesAux [] rest
  | cur, '\r' :: rest => cur.reverse :: splitlinesAux [] rest
  | cur, c :: rest => splitlinesAux (c :: cur) rest

/-- Python `s.splitlines()` for the terminators `\n`, `\r\n` and `\r`:
a final terminator adds no empty trailing element. -/
def pySplitlines (s : String) : List String :=
  (splitlinesAux [] s.data).map String.mk

/-- Boolean list-prefix test. -/
def isPrefixL : List Char → List Char → Bool
  | [], _ => true
  | _ :: _, [] => false
  | a :: as, b :: bs => a = b && isPrefixL as bs

/-- Boolean substring test: `needle` occurs contiguously in the haystack. -/
def isSubL (needle : List Char) : List Char → Bool
  | [] => isPrefixL needle []
  | hay@(_ :: t) => isPrefixL needle hay || isSubL needle t

/-- Python `needle in hay` on strings. -/
def strContains (hay needle : String) : Bool := isSubL needle.data hay.data

/-- URL validation used by `cmd_addurl`/`cmd_addurls` (src/main.py:125,161):
`url.startswith("http://") or url.startswith("https://")`. -/
def validScheme (url : String) : Bool :=
  isPrefixL "http://".data url.data || isPrefixL "https://".data url.data

/-! ## Observable effects of a handler

Each handler is embedded as a pure function from the incoming message and
the registry to the new registry plus the ordered list of its outward
effects: replies sent, `save_links` calls (with the registry they persist),
and message edits (with the new text and the keyboard's (label, url) rows). -/

inductive Effect : Type where
  | reply : String → Effect
  | save : Registry → Effect
  | edit : String → List (String × String) → Effect
  deriving DecidableEq

/-- True exactly on `save_links` effects. -/
def Effect.isSave : Effect → Bool
  | Effect.save _ => true
  | _ => false

/-- Denial reply sent to non-admin senders by every mutating command. -/
def denialMsg : String := "❌ Only admins can use this command."

/-! ## Keyboard construction (src/main.py:69-75) -/

/-- Embeds `build_keyboard`: one `(label, url)` row per url, in order, with
`links_db[url].get("label", "Sign Up Now")`; a url absent from the registry
raises `KeyError`, modelled as `none`. -/
def build_keyboard (db : Registry) : List String → Option (List (String × String))
  | [] => some []
  | url :: rest =>
      match lookupA db url with
      | none => none
      | some entry =>
          (build_keyboard db rest).map
            (fun bs => ((lookupA entry "label").getD "Sign Up Now", url) :: bs)

/-! ## URL detection and code extraction (src/main.py:333-342) -/

/-- The url detection of `auto_edit` (src/main.py:334):
`[url for url in links_db if url in text]`. -/
def found_urls (db : Registry) (text : String) : List String :=
  (dictKeys db).filter (fun url => strContains text url)

/-- Character class `[A-Za-z0-9@_-]` of the referral-code regex. -/
def codeChar (c : Char) : Bool :=
  ('A' ≤ c && c ≤ 'Z') || ('a' ≤ c && c ≤ 'z') || ('0' ≤ c && c ≤ '9') ||
    c = '@' || c = '_' || c = '-'

/-- Character class `[:\s]` of the referral-code regex (ASCII fragment). -/
def sepChar (c : Char) : Bool := c = ':' || pyWs c

/-- Case-insensitive match of the literal token `code` (ASCII casing, as in
`re.IGNORECASE` on these letters). -/
def isCodeTok (c1 c2 c3 c4 : Char) : Bool :=
  c1.toLower = 'c' && c2.toLower = 'o' && c3.toLower = 'd' && c4.toLower = 'e'

/-- Match of `(code[:\s]*)([A-Za-z0-9@_-]+)` anchored at the start of the
list, returning capture group 2.  Greedy `[:\s]*` with backtracking is
equivalent to this backtrack-free form because `[:\s]` and `[A-Za-z0-9@_-]`
are disjoint classes. -/
def tryMatch : List Char → Option (List Char)
  | c1 :: c2 :: c3 :: c4 :: rest =>
      if isCodeTok c1 c2 c3 c4 then
        let run := (rest.dropWhile sepChar).takeWhile codeChar
        if run = [] then none else some run
      else none
  | _ => none

/-- Leftmost-match search, as `re.search`: try each start position left to
right. -/
def searchCode : List Char → Option (List Char)
  | [] => none
  | c :: t =>
      match tryMatch (c :: t) with
      | some r => some r
      | none => searchCode t

/-- Embeds the code extraction of `auto_edit` (src/main.py:341):
`re.search(r'(code[:\s]*)([A-Za-z0-9@_-]+)', text, re.IGNORECASE)`,
group 2 of the first match. -/
def extract_code (text : String) : Option String :=
  (searchCode text.data).map String.mk

/-! ## JSON persistence (src/main.py:37-59)

`save_links` is `json.dump(links, f, indent=2, ensure_ascii=False)` and
`load_links` is `json.load(f)` with every exception mapped to `{}`.  The
registry is a dict of dicts of strings, so the emitted document and the
parser are modelled for exactly that shape. -/

/-- Lowercase hex digit, as in CPython's `"\u%04x"` escape formatting. -/
def hexDigitL (n : Nat) : Char :=
  if n < 10 then Char.ofNat (48 + n) else Char.ofNat (87 + n)

/-- JSON string-character escaping with `ensure_ascii=False`: only `"` ,
`\` and control characters below 0x20 are escaped; everything else,
non-ASCII included, passes through unescaped. -/
def jsonEscapeChar (c : Char) : List Char :=
  if c = '"' then ['\\', '"']
  else if c = '\\' then ['\\', '\\']
  else if c = '\x08' then ['\\', 'b']
  else if c = '\x0c' then ['\\', 'f']
  else if c = '\n' then ['\\', 'n']
  else if c = '\r' then ['\\', 'r']
  else if c = '\t' then ['\\', 't']
  else if c.toNat < 32 then
    ['\\', 'u', '0', '0', hexDigitL (c.toNat / 16), hexDigitL (c.toNat % 16)]
  else [c]

/-- Escaped body of a JSON string. -/
def jsonEscape : List Char → List Char
  | [] => []
  | c :: rest => jsonEscapeChar c ++ jsonEscape rest

/-- A rendered JSON string, quotes included. -/
def jsonStr (s : String) : List Char := '"' :: (jsonEscape s.data ++ ['"'])

/-- One `"key": "value"` item of an entry object. -/
def renderEntryItem (p : String × String) : List Char :=
  jsonStr p.1 ++ (':' :: ' ' :: jsonStr p.2)

/-- Subsequent entry items, each preceded by `,\n` and depth-2 indent. -/
def renderEntryItems : List (String × String) → List Char
  | [] => []
  | q :: rest =>
      ',' :: '\n' :: ' ' :: ' ' :: ' ' :: ' ' ::
        (renderEntryItem q ++ renderEntryItems rest)

/-- An entry object as `json.dump` renders it at depth 1 with `indent=2`. -/
def renderEntry : Entry → List Char
  | [] => ['{', '}']
  | p :: rest =>
      '{' :: '\n' :: ' ' :: ' ' :: ' ' :: ' ' ::
        (renderEntryItem p ++ renderEntryItems rest ++ ('\n' :: ' ' :: ' ' :: ['}']))

/-- One `"url": {...}` item of the top-level object. -/
def renderRegItem (p : String × Entry) : List Char :=
  jsonStr p.1 ++ (':' :: ' ' :: renderEntry p.2)

/-- Subsequent top-level items, each preceded by `,\n` and depth-1 indent. -/
def renderRegItems : List (String × Entry) → List Char
  | [] => []
  | q :: rest => ',' :: '\n' :: ' ' :: ' ' :: (renderRegItem q ++ renderRegItems rest)

/-- The whole document `json.dump(links, f, indent=2, ensure_ascii=False)`
writes. -/
def renderReg : Registry → List Char
  | [] => ['{', '}']
  | p :: rest =>
      '{' :: '\n' :: ' ' :: ' ' ::
        (renderRegItem p ++ renderRegItems rest ++ ('\n' :: ['}']))

/-- Embeds `save_links` (src/main.py:52-59): the file content written. -/
def save_links (links : Registry) : String := String.mk (renderReg links)

/-- JSON whitespace accepted between tokens by the decoder. -/
def jsonWsP (c : Char) : Bool := c = ' ' || c = '\t' || c = '\n' || c = '\r'

/-- Drops leading JSON whitespace. -/
def skipWs : List Char → List Char
  | [] => []
  | c :: rest => if jsonWsP c then skipWs rest else c :: rest

/-- Hex digit value, both cases, as accepted in `\uXXXX` escapes. -/
def hexVal (c : Char) : Option Nat :=
  if '0' ≤ c && c ≤ '9' then some (c.toNat - 48)
  else if 'a' ≤ c && c ≤ 'f' then some (c.toNat - 87)
  else if 'A' ≤ c && c ≤ 'F' then some (c.toNat - 55)
  else none

/-- Decodes a JSON string body up to the closing quote, returning the
decoded characters and the rest of the input.  Raw control characters are
rejected (strict mode) and unknown escapes fail, as in `json.load`. -/
def parseStrBody : List Char → Option (List Char × List Char)
  | [] => none
  | c :: rest =>
      if c = '"' then some ([], rest)
      else if c = '\\' then
        match rest with
        | [] => none
        | e :: r =>
            if e = '"' then (parseStrBody r).map (fun p => ('"' :: p.1, p.2))
            else if e = '\\' then (parseStrBody r).map (fun p => ('\\' :: p.1, p.2))
            else if e = '/' then (parseStrBody r).map (fun p => ('/' :: p.1, p.2))
            else if e = 'b' then (parseStrBody r).map (fun p => ('\x08' :: p.1, p.2))
            else if e = 'f' then (parseStrBody r).map (fun p => ('\x0c' :: p.1, p.2))
            else if e = 'n' then (parseStrBody r).map (fun p => ('\n' :: p.1, p.2))
            else if e = 'r' then (parseStrBody r).map (fun p => ('\r' :: p.1, p.2))
            else if e = 't' then (parseStrBody r).map (fun p => ('\t' :: p.1, p.2))
            else if e = 'u' then
              match r with
              | h1 :: h2 :: h3 :: h4 :: rr =>
                  match hexVal h1, hexVal h2, hexVal h3, hexVal h4 with
                  | some a, some b, some u, some d =>
                      (parseStrBody rr).map
                        (fun p => (Char.ofNat (4096 * a + 256 * b + 16 * u + d) :: p.1, p.2))
                  | _, _, _, _ => none
              | _ => none
            else none
      else if c.toNat < 32 then none
      else (parseStrBody rest).map (fun p => (c :: p.1, p.2))

/-- Parses a quoted JSON string. -/
def parseJString : List Char → Option (String × List Char)
  | '"' :: rest => (parseStrBody rest).map (fun p => (String.mk p.1, p.2))
  | _ => none

/-- Python `dict(pairs)` semantics: later values win, the first occurrence
fixes the position. -/
def dictFromPairs {α : Type} (ps : List (String × α)) : List (String × α) :=
  ps.foldl (fun d p => dictInsert d p.1 p.2) []

/-- Parses the `"key": "value"` pair list of a non-empty entry object, up
to and including the closing `}`.  Fuel bounds the number of pairs. -/
def parseEntryPairs : Nat → List Char → Option (List (String × String) × List Char)
  | 0, _ => none
  | fuel + 1, input =>
      match parseJString (skipWs input) with
      | none => none
      | some (k, r1) =>
          match skipWs r1 with
          | ':' :: r2 =>
              match parseJString (skipWs r2) with
              | none => none
              | some (v, r3) =>
                  match skipWs r3 with
                  | ',' :: r4 =>
                      match parseEntryPairs fuel r4 with
                      | none => none
                      | some (ps, r5) => some ((k, v) :: ps, r5)
                  | '}' :: r4 => some ([(k, v)], r4)
                  | _ => none
          | _ => none

/-- Parses an entry object `{...}` of strings: after the opening brace and
whitespace, a closing brace yields the empty dict, anything else the pair
list. -/
def parseEntryObj (fuel : Nat) : List Char → Option (Entry × List Char)
  | '{' :: rest =>
      if (skipWs rest).take 1 = ['}'] then some ([], (skipWs rest).drop 1)
      else (parseEntryPairs fuel (skipWs rest)).map (fun p => (dictFromPairs p.1, p.2))
  | _ => none

/-- Parses the pair list of a non-empty top-level object; `efuel` bounds
the pair count of each entry object, `fuel` the top-level pair count. -/
def parseRegPairs (efuel : Nat) : Nat → List Char → Option (List (String × Entry) × List Char)
  | 0, _ => none
  | fuel + 1, input =>
      match parseJString (skipWs input) with
      | none => none
      | some (k, r1) =>
          match skipWs r1 with
          | ':' :: r2 =>
              match parseEntryObj efuel (skipWs r2) with
              | none => none
              | some (v, r3) =>
                  match skipWs r3 with
                  | ',' :: r4 =>
                      match parseRegPairs efuel fuel r4 with
                      | none => none
                      | some (ps, r5) => some ((k, v) :: ps, r5)
                  | '}' :: r4 => some ([(k, v)], r4)
                  | _ => none
          | _ => none

/-- Parses the top-level object of the links file. -/
def parseRegObj (efuel fuel : Nat) : List Char → Option (Registry × List Char)
  | '{' :: rest =>
      if (skipWs rest).take 1 = ['}'] then some ([], (skipWs rest).drop 1)
      else (parseRegPairs efuel fuel (skipWs rest)).map (fun p => (dictFromPairs p.1, p.2))
  | _ => none

/-- Embeds `load_links` (src/main.py:37-50) on a present file with the
given content: `json.load` restricted to the dict-of-dicts-of-strings
shape `save_links` writes; any parse failure (or trailing garbage) raises
and the handler returns `{}`. -/
def load_links (content : String) : Registry :=
  match parseRegObj content.data.length content.data.length (skipWs content.data) with
  | some (r, rest) => if skipWs rest = [] then r else []
  | none => []

/-! ## Command handlers (src/main.py:109-322)

Each takes the admin list, the sender id, the full message text and the
registry. -/

/-- Embeds `cmd_addurl` (src/main.py:109-136). -/
def cmd_addurl (admin_ids : List Int) (sender : Int) (text : String)
    (db : Registry) : Registry × List Effect :=
  if !is_admin admin_ids sender then (db, [Effect.reply denialMsg])
  else
    match pySplitMax 2 text.data with
    | [_, labelL, urlL] =>
        let label := String.mk labelL
        let url := String.mk urlL
        if validScheme url then
          let db' := dictInsert db url [("label", label)]
          (db', [Effect.save db',
                 Effect.reply ("✅ Saved: <b>" ++ escape_html label ++ "</b> → "
                   ++ escape_html url)])
        else
          (db, [Effect.reply "❌ Invalid URL. Must start with http:// or https://"])
    | _ =>
        (db, [Effect.reply
          "Usage: /addurl [Label] [URL]\n\nExample: /addurl \"Sign Up\" https://example.com/ref123"])

/-- The per-line loop of `cmd_addurls` (src/main.py:154-166): returns the
final registry, the `added` list and the `errors` list. -/
def addurlsLoop : Registry → Nat → List String → Registry × List String × List String
  | db, _, [] => (db, [], [])
  | db, n, line :: rest =>
      match pySplitMax 1 (pyStrip line.data) with
      | [labelL, urlL] =>
          let label := String.mk labelL
          let url := String.mk urlL
          if validScheme url then
            let t := addurlsLoop (dictInsert db url [("label", label)]) (n + 1) rest
            (t.1, (escape_html label ++ " → " ++ escape_html url) :: t.2.1, t.2.2)
          else
            let t := addurlsLoop db (n + 1) rest
            (t.1, t.2.1, ("Line " ++ toString n ++ ": Invalid URL") :: t.2.2)
      | _ =>
          let t := addurlsLoop db (n + 1) rest
          (t.1, t.2.1, ("Line " ++ toString n ++ ": Invalid format") :: t.2.2)

/-- Embeds `cmd_addurls` (src/main.py:138-182). -/
def cmd_addurls (admin_ids : List Int) (sender : Int) (text : String)
    (db : Registry) : Registry × List Effect :=
  if !is_admin admin_ids sender then (db, [Effect.reply denialMsg])
  else
    let lines := (pySplitlines text).drop 1
    if lines = [] then
      (db, [Effect.reply "Usage: /addurls\nLabel1 URL1\nLabel2 URL2\n..."])
    else
      let t := addurlsLoop db 1 lines
      let added := t.2.1
      let errors := t.2.2
      let response :=
        (if added = [] then "" else "✅ Added:\n" ++ String.intercalate "\n" added)
          ++ (if errors = [] then ""
              else "\n\n❌ Errors:\n" ++ String.intercalate "\n" errors)
      (t.1,
        (if added = [] then [] else [Effect.save t.1])
          ++ [Effect.reply (if response = "" then "No valid URLs to add." else response)])

/-- Embeds `cmd_delurl` (src/main.py:184-208). -/
def cmd_delurl (admin_ids : List Int) (sender : Int) (text : String)
    (db : Registry) : Registry × List Effect :=
  if !is_admin admin_ids sender then (db, [Effect.reply denialMsg])
  else
    match pySplitMax 1 text.data with
    | [_, urlL] =>
        let url := String.mk urlL
        match lookupA db url with
        | some _ =>
            let db' := dictRemove db url
            (db', [Effect.save db', Effect.reply ("❌ Removed " ++ escape_html url)])
        | none => (db, [Effect.reply "URL not found in database"])
    | _ => (db, [Effect.reply "Usage: /delurl [URL]"])

/-- The per-line loop of `cmd_delurls` (src/main.py:226-235): returns the
final registry, the `removed` list and the `not_found` list. -/
def delurlsLoop : Registry → List String → Registry × List String × List String
  | db, [] => (db, [], [])
  | db, line :: rest =>
      let url := String.mk (pyStrip line.data)
      if url = "" then delurlsLoop db rest
      else
        match lookupA db url with
        | some _ =>
            let t := delurlsLoop (dictRemove db url) rest
            (t.1, escape_html url :: t.2.1, t.2.2)
        | none =>
            let t := delurlsLoop db rest
            (t.1, t.2.1, escape_html url :: t.2.2)

/-- Embeds `cmd_delurls` (src/main.py:210-251). -/
def cmd_delurls (admin_ids : List Int) (sender : Int) (text : String)
    (db : Registry) : Registry × List Effect :=
  if !is_admin admin_ids sender then (db, [Effect.reply denialMsg])
  else
    let lines := (pySplitlines text).drop 1
    if lines = [] then
      (db, [Effect.reply "Usage: /delurls\nURL1\nURL2\n..."])
    else
      let t := delurlsLoop db lines
      let removed := t.2.1
      let notFound := t.2.2
      let response :=
        (if removed = [] then ""
         else "❌ Removed:\n" ++ String.intercalate "\n" removed)
          ++ (if notFound = [] then ""
              else "\n\n⚠️ Not found:\n" ++ String.intercalate "\n" notFound)
      (t.1,
        (if removed = [] then [] else [Effect.save t.1])
          ++ [Effect.reply (if response = "" then "No URLs to remove." else response)])

/-- Embeds `cmd_setbutton` (src/main.py:297-322). -/
def cmd_setbutton (admin_ids : List Int) (sender : Int) (text : String)
    (db : Registry) : Registry × List Effect :=
  if !is_admin admin_ids sender then (db, [Effect.reply denialMsg])
  else
    match pySplitMax 2 text.data with
    | [_, urlL, labelL] =>
        let url := String.mk urlL
        let label := String.mk labelL
        match lookupA db url with
        | none => (db, [Effect.reply "URL not found in database"])
        | some entry =>
            let db' := dictInsert db url (dictInsert entry "label" label)
            (db', [Effect.save db',
                   Effect.reply ("🔁 Updated label for " ++ escape_html url
                     ++ " to: <b>" ++ escape_html label ++ "</b>")])
    | _ => (db, [Effect.reply "Usage: /setbutton [URL] [Button Text]"])

/-- Characterization vocabulary for the `/addurls` batch: the `(label,
url)` a line contributes, `none` for a malformed line (wrong shape after
`strip().split(maxsplit=1)`, or a url without an http(s) scheme). -/
def parseAddLine (line : String) : Option (String × String) :=
  match pySplitMax 1 (pyStrip line.data) with
  | [labelL, urlL] =>
      if validScheme (String.mk urlL) then some (String.mk labelL, String.mk urlL)
      else none
  | _ => none

/-- Registry effect of one batch line: a valid line inserts its url with
a fresh `{"label": label}` entry, a malformed line changes nothing. -/
def applyAddLine (d : Registry) (line : String) : Registry :=
  match parseAddLine line with
  | some p => dictInsert d p.2 [("label", p.1)]
  | none => d

/-- The per-line error messages of the `/addurls` batch, with 1-based line
numbers starting at `n`; a function of the lines alone, independent of the
registry. -/
def addErrorsSpec : Nat → List String → List String
  | _, [] => []
  | n, line :: rest =>
      match pySplitMax 1 (pyStrip line.data) with
      | [_, urlL] =>
          if validScheme (String.mk urlL) then addErrorsSpec (n + 1) rest
          else ("Line " ++ toString n ++ ": Invalid URL") :: addErrorsSpec (n + 1) rest
      | _ => ("Line " ++ toString n ++ ": Invalid format") :: addErrorsSpec (n + 1) rest

/-! ## Listing with chunked output (src/main.py:253-295) -/

/-- One rendered entry line of `/listurls`:
`f"{i}. {escape_html(label)} → {escape_html(url)}\n"` with
`label = data.get('label', 'No Label')`. -/
def listLine (i : Nat) (url : String) (e : Entry) : String :=
  toString i ++ ". " ++ escape_html ((lookupA e "label").getD "No Label")
    ++ " → " ++ escape_html url ++ "\n"

/-- All entry lines of `/listurls`, numbered from 1 in registry order. -/
def listLines (db : Registry) : List String :=
  db.enum.map (fun p => listLine (p.1 + 1) p.2.1 p.2.2)

/-- The header line `f"<b>Saved Links ({len(links_db)}):</b>\n\n"`. -/
def listHeader (db : Registry) : String :=
  "<b>Saved Links (" ++ toString db.length ++ "):</b>\n\n"

/-- The chunking loop of `cmd_listurls` (src/main.py:272-286): starting
from `current_chunk`, append each line unless that would push the chunk
past 4000 characters, in which case the chunk is emitted and the line
starts a new one; a final non-empty chunk is emitted. -/
def chunkLoop : String → List String → List String
  | current, [] => if current = "" then [] else [current]
  | current, line :: rest =>
      if 4000 < (current ++ line).length then current :: chunkLoop line rest
      else chunkLoop (current ++ line) rest

/-- The chunk sequence `/listurls` sends when its text is oversized. -/
def listChunks (db : Registry) : List String :=
  chunkLoop (listHeader db) (listLines db)

/-- Embeds `cmd_listurls` (src/main.py:253-295). -/
def cmd_listurls (admin_ids : List Int) (sender : Int)
    (db : Registry) : Registry × List Effect :=
  if !is_admin admin_ids sender then (db, [Effect.reply denialMsg])
  else if db = [] then (db, [Effect.reply "No links saved yet."])
  else
    let text := listHeader db ++ strConcat (listLines db)
    if 4000 < text.length then (db, (listChunks db).map Effect.reply)
    else (db, [Effect.reply text])

/-! ## Auto-format handler (src/main.py:324-368) -/

/-- Embeds `auto_edit`.  `edit_ok` says whether the transport edit call
succeeds; on failure the exception is caught and only logged.  A `KeyError`
from `build_keyboard` is caught by the outer handler, producing no effect. -/
def auto_edit (db : Registry) (text : String) (edit_ok : Bool) :
    Registry × List Effect :=
  if text = "" then (db, [])
  else if db = [] then (db, [])
  else
    let found := found_urls db text
    if found = [] then (db, [])
    else
      let code_text :=
        match extract_code text with
        | some c => "<b>Code:</b> " ++ escape_html c ++ "\n\n"
        | none => ""
      let first_line :=
        match pySplitlines text with
        | [] => "Referral Links"
        | l :: _ => l
      let new_text := "<b>" ++ escape_html first_line ++ "</b>\n\n"
        ++ code_text ++ "<b>Links below:</b>"
      match build_keyboard db found with
      | some kb => if edit_ok then (db, [Effect.edit new_text kb]) else (db, [])
      | none => (db, [])

/-! ## Concrete registries used to exercise the listing size limit -/

/-- A url of 4100 `a`s: its rendered entry line alone exceeds 4000. -/
def longA : String := String.mk (List.replicate 4100 'a')

/-- Registry whose single entry renders past the 4000-character limit. -/
def cexDb : Registry := [(longA, [("label", "L")])]

/-- A url of 2500 `b`s. -/
def medB : String := String.mk (List.replicate 2500 'b')

/-- A url of 2500 `c`s. -/
def medC : String := String.mk (List.replicate 2500 'c')

/-- Registry whose listing exceeds 4000 characters only in total. -/
def witDb : Registry := [(medB, [("label", "L")]), (medC, [("label", "M")])]

/-! ## General lemmas -/

theorem strLength_append (s t : String) : (s ++ t).length = s.length + t.length :=
  List.length_append s.data t.data

theorem strAppend_assoc (a b c : String) : (a ++ b) ++ c = a ++ (b ++ c) :=
  congrArg String.mk (List.append_assoc a.data b.data c.data)

theorem strEmpty_append (s : String) : "" ++ s = s := String.ext rfl

theorem strAppend_empty (s : String) : s ++ "" = s :=
  String.ext (List.append_nil s.data)

theorem strConcat_singleton (s : String) : strConcat [s] = s := by
  rw [strConcat, strConcat, strAppend_empty]

theorem strNe_empty_of_length {s : String} (h : 0 < s.length) : s ≠ "" := by
  intro he
  rw [he] at h
  simp at h

theorem strAppend_ne_empty_left {s : String} (t : String) (h : s ≠ "") :
    s ++ t ≠ "" := by
  have hs : 0 < s.length := by
    rcases Nat.eq_zero_or_pos s.length with h0 | h0
    · exact absurd (String.ext (List.length_eq_zero.mp h0)) h
    · exact h0
  exact strNe_empty_of_length (by rw [strLength_append]; omega)

theorem strConcat_append (a b : List String) :
    strConcat (a ++ b) = strConcat a ++ strConcat b := by
  induction a with
  | nil => simp [strConcat, strEmpty_append]
  | cons x xs ih => simp [strConcat, ih, strAppend_assoc]

theorem listLine_length_pos (i : Nat) (url : String) (e : Entry) :
    0 < (listLine i url e).length := by
  rw [listLine, strLength_append]
  have h : ("\n" : String).length = 1 := rfl
  omega

theorem listHeader_ne_empty (db : Registry) : listHeader db ≠ "" := by
  apply strNe_empty_of_length
  rw [listHeader, strLength_append]
  have h : ("):</b>\n\n" : String).length = 8 := rfl
  omega

/-- Every chunk the loop emits stays within the limit, provided the chunk
under construction and every pending line do. -/
theorem chunkLoop_bounded (lines : List String) : ∀ cur : String,
    cur.length ≤ 4000 → (∀ l ∈ lines, l.length ≤ 4000) →
    ∀ c ∈ chunkLoop cur lines, c.length ≤ 4000 := by
  induction lines with
  | nil =>
    intro cur hc _ c hm
    rw [chunkLoop] at hm
    split at hm
    · simp at hm
    · rw [List.mem_singleton] at hm
      exact hm ▸ hc
  | cons line rest ih =>
    intro cur hc hl c hm
    rw [chunkLoop] at hm
    split at hm
    · rcases List.mem_cons.mp hm with rfl | hm2
      · exact hc
      · exact ih line (hl line (by simp)) (fun l h => hl l (by simp [h])) c hm2
    · next hlen =>
        exact ih (cur ++ line) (by rw [strLength_append] at hlen ⊢; omega)
          (fun l h => hl l (by simp [h])) c hm

/-- The chunk sequence is a flattening-preserving regrouping of
`cur :: lines`: chunks are concatenations of consecutive whole elements. -/
theorem chunkLoop_groups (lines : List String) : ∀ cur : String, cur ≠ "" →
    (∀ l ∈ lines, l ≠ "") →
    ∃ groups : List (List String),
      chunkLoop cur lines = groups.map strConcat ∧
      groups.flatten = cur :: lines ∧ ∀ g ∈ groups, g ≠ [] := by
  induction lines with
  | nil =>
    intro cur hc _
    exact ⟨[[cur]], by simp [chunkLoop, hc, strConcat, strAppend_empty], by simp, by simp⟩
  | cons line rest ih =>
    intro cur hc hl
    rw [chunkLoop]
    split
    · obtain ⟨gs, h1, h2, h3⟩ :=
        ih line (hl line (by simp)) (fun l h => hl l (by simp [h]))
      refine ⟨[cur] :: gs, ?_, by simp [h2], ?_⟩
      · simp [h1, strConcat, strAppend_empty]
      · intro g hm
        rcases List.mem_cons.mp hm with rfl | hm2
        · simp
        · exact h3 g hm2
    · obtain ⟨gs, h1, h2, h3⟩ :=
        ih (cur ++ line) (strAppend_ne_empty_left line hc)
          (fun l h => hl l (by simp [h]))
      cases gs with
      | nil => simp at h2
      | cons g gtl =>
        have hg : g ≠ [] := h3 g (by simp)
        cases g with
        | nil => exact absurd rfl hg
        | cons s ls =>
          have hs : s = cur ++ line ∧ ls ++ gtl.flatten = rest := by
            simpa using h2
          refine ⟨(cur :: line :: ls) :: gtl, ?_, ?_, ?_⟩
          · rw [h1]
            simp [strConcat, hs.1, strAppend_assoc]
          · simp [hs.2]
          · intro g hm
            rcases List.mem_cons.mp hm with rfl | hm2
            · simp
            · exact h3 g (by simp [hm2])

theorem strConcat_flatten (gs : List (List String)) :
    strConcat (gs.map strConcat) = strConcat gs.flatten := by
  induction gs with
  | nil => rfl
  | cons g gt ih => simp [strConcat, List.flatten_cons, strConcat_append, ih]

theorem chunkLoop_strConcat (lines : List String) (cur : String) (hc : cur ≠ "")
    (hl : ∀ l ∈ lines, l ≠ "") :
    strConcat (chunkLoop cur lines) = cur ++ strConcat lines := by
  obtain ⟨gs, h1, h2, _⟩ := chunkLoop_groups lines cur hc hl
  rw [h1, strConcat_flatten, h2, strConcat]

/-- When the total text is oversized, the loop emits at least two chunks. -/
theorem chunkLoop_two (lines : List String) (cur : String) (hc : cur ≠ "")
    (hl : ∀ l ∈ lines, l ≠ "") (hcur : cur.length ≤ 4000)
    (hlen : ∀ l ∈ lines, l.length ≤ 4000)
    (hbig : 4000 < (cur ++ strConcat lines).length) :
    2 ≤ (chunkLoop cur lines).length := by
  have hcat := chunkLoop_strConcat lines cur hc hl
  have hbound := chunkLoop_bounded lines cur hcur hlen
  rcases hch : chunkLoop cur lines with _ | ⟨c, _ | ⟨c2, t⟩⟩
  · rw [hch] at hcat
    have h0 := congrArg String.length hcat
    have hz : (strConcat []).length = 0 := rfl
    rw [hz] at h0
    omega
  · rw [hch] at hcat
    have hb := hbound c (by rw [hch]; simp)
    have hone : strConcat [c] = c := by rw [strConcat, strConcat, strAppend_empty]
    rw [hone] at hcat
    have h0 := congrArg String.length hcat
    have hg : ([c] : List String).length = 1 := rfl
    rw [hg]
    omega
  · simp

theorem strMk_data (s : String) : String.mk s.data = s := rfl

theorem replaceChar_noop (s : String) (c : Char) (rep : String)
    (h : c ∉ s.data) : replaceChar s c rep = s := by
  rw [replaceChar]
  have hfold : ∀ l : List Char, c ∉ l →
      l.foldr (fun a acc => if a = c then rep.data ++ acc else a :: acc) [] = l := by
    intro l
    induction l with
    | nil => intro _; rfl
    | cons a t ih =>
        intro hm
        rw [List.foldr_cons, ih (fun hx => hm (by simp [hx]))]
        rw [if_neg (fun hx => hm (by simp [hx]))]
  rw [hfold s.data h]

theorem escape_html_noop (s : String) (hne : s ≠ "")
    (h : ∀ c ∈ s.data, c ≠ '&' ∧ c ≠ '<' ∧ c ≠ '>') : escape_html s = s := by
  rw [escape_html, if_neg hne]
  rw [replaceChar_noop s '&' "&amp" (fun hm => (h _ hm).1 rfl)]
  rw [replaceChar_noop s '<' "&lt;" (fun hm => (h _ hm).2.1 rfl)]
  rw [replaceChar_noop s '>' "&gt;" (fun hm => (h _ hm).2.2 rfl)]

theorem escape_html_replicate (n : Nat) (c : Char) (hn : n ≠ 0)
    (h : c ≠ '&' ∧ c ≠ '<' ∧ c ≠ '>') :
    escape_html (String.mk (List.replicate n c)) = String.mk (List.replicate n c) := by
  apply escape_html_noop
  · intro he
    have := congrArg String.length he
    simp at this
    exact hn this
  · intro a ha
    rw [List.eq_of_mem_replicate ha]
    exact h

theorem listLine_label_eq (i : Nat) (url lab : String) :
    listLine i url [("label", lab)] =
      toString i ++ ". " ++ escape_html lab ++ " → " ++ escape_html url ++ "\n" := rfl

theorem listLine_label_length (i : Nat) (url lab : String)
    (hlab : escape_html lab = lab) (hurl : escape_html url = url) :
    (listLine i url [("label", lab)]).length
      = (toString i).length + lab.length + url.length + 6 := by
  rw [listLine_label_eq, hlab, hurl]
  rw [strLength_append, strLength_append, strLength_append, strLength_append,
    strLength_append]
  have h1 : (". " : String).length = 2 := rfl
  have h2 : (" → " : String).length = 3 := rfl
  have h3 : ("\n" : String).length = 1 := rfl
  omega

theorem searchCode_eq_none (l : List Char) :
    searchCode l = none ↔ ∀ i, tryMatch (l.drop i) = none := by
  induction l with
  | nil => simp [searchCode, tryMatch]
  | cons c t ih =>
    rw [searchCode]
    cases htm : tryMatch (c :: t) with
    | some r =>
        simp only [reduceCtorEq, false_iff, not_forall]
        exact ⟨0, by simp [htm]⟩
    | none =>
        simp only [ih]
        constructor
        · intro ht i
          cases i with
          | zero => simpa using htm
          | succ j => simpa using ht j
        · intro hall i
          simpa using hall (i + 1)

theorem searchCode_eq_some (l r : List Char) (h : searchCode l = some r) :
    ∃ i, tryMatch (l.drop i) = some r ∧ ∀ j, j < i → tryMatch (l.drop j) = none := by
  induction l with
  | nil => simp [searchCode] at h
  | cons c t ih =>
    rw [searchCode] at h
    cases htm : tryMatch (c :: t) with
    | some r2 =>
        rw [htm] at h
        injection h with h2
        subst h2
        exact ⟨0, by simpa using htm, fun j hj => absurd hj (Nat.not_lt_zero j)⟩
    | none =>
        rw [htm] at h
        obtain ⟨i, hi, hj⟩ := ih h
        refine ⟨i + 1, by simpa using hi, fun j hlt => ?_⟩
        cases j with
        | zero => simpa using htm
        | succ k => simpa using hj k (by omega)

/-- The `/addurls` loop is a per-line fold: the final registry folds each
line's individual effect, the `added` list collects the valid lines, and
the error list is a function of the lines alone. -/
theorem addurlsLoop_eq (lines : List String) : ∀ (db : Registry) (n : Nat),
    addurlsLoop db n lines =
      (lines.foldl applyAddLine db,
       lines.filterMap (fun l => (parseAddLine l).map
         (fun p => escape_html p.1 ++ " → " ++ escape_html p.2)),
       addErrorsSpec n lines) := by
  induction lines with
  | nil => intro db n; rfl
  | cons line rest ih =>
    intro db n
    rcases hsp : pySplitMax 1 (pyStrip line.data) with _ | ⟨labelL, rest2⟩
    · simp [addurlsLoop, hsp, ih, parseAddLine, applyAddLine, addErrorsSpec]
    · rcases rest2 with _ | ⟨urlL, rest3⟩
      · simp [addurlsLoop, hsp, ih, parseAddLine, applyAddLine, addErrorsSpec]
      · rcases rest3 with _ | ⟨x, tl⟩
        · by_cases hv : validScheme (String.mk urlL) = true
          · simp [addurlsLoop, hsp, hv, ih, parseAddLine, applyAddLine, addErrorsSpec]
          · simp [addurlsLoop, hsp, hv, ih, parseAddLine, applyAddLine, addErrorsSpec]
        · simp [addurlsLoop, hsp, ih, parseAddLine, applyAddLine, addErrorsSpec]

/-- The `added` list of the batch is empty exactly when no line parses. -/
theorem addurls_added_empty_iff (L : List String) :
    (L.filterMap (fun l => (parseAddLine l).map
        (fun p => escape_html p.1 ++ " → " ++ escape_html p.2)) = [])
      ↔ L.any (fun l => (parseAddLine l).isSome) = false := by
  rw [List.filterMap_eq_nil_iff]
  constructor
  · intro h
    by_contra hne
    rw [Bool.not_eq_false] at hne
    obtain ⟨l, hl, hsome⟩ := List.any_eq_true.mp hne
    obtain ⟨p, hp⟩ := Option.isSome_iff_exists.mp hsome
    have h2 := h l hl
    rw [hp] at h2
    simp at h2
  · intro h l hl
    rw [Option.map_eq_none']
    rw [← Option.not_isSome_iff_eq_none]
    intro hsome
    have h2 : L.any (fun l => (parseAddLine l).isSome) = true :=
      List.any_eq_true.mpr ⟨l, hl, hsome⟩
    rw [h] at h2
    exact Bool.false_ne_true h2

/-! ## Claim theorems -/

/-- C1: the spec requires `escape_html` to replace `&` by the markup-safe
escape `&amp;`; the source (src/main.py:81) writes `"&amp"` without the
terminating semicolon, so `&` is rendered as the invalid sequence `&amp`.
The `<` and `>` replacements (and the `<b>` example) are as specified. -/
theorem escape_html_missing_semicolon :
    escape_html "&" = "&amp" ∧ escape_html "&" ≠ "&amp;" ∧
    escape_html "<b>" = "&lt;b&gt;" := by decide

/-- C2 counterexample: under five consecutive connection failures the loop
performs only four waits, `[2, 4, 8, 16]`; the claimed wait sequence
`2,4,8,16,32` does not occur (there is no wait after the fifth failure). -/
theorem mainRetry_counterexample :
    (mainRetryRun 0 5).2 ≠ [2, 4, 8, 16, 32] := by
  simp [mainRetryRun, backoffWait]

/-- C2 amended: the attempt count starts at 0 and each failure increments
it; failures 1..4 are each followed by a wait of `min(60, 2 ^ attempt)`,
giving the sequence `2,4,8,16`; after the 5th consecutive failure the loop
terminates immediately, with no fifth wait and no 6th attempt (exactly 5
attempts are made). -/
theorem mainRetry_amended :
    mainRetryRun 0 5 = (5, [backoffWait 1, backoffWait 2, backoffWait 3, backoffWait 4]) ∧
    [backoffWait 1, backoffWait 2, backoffWait 3, backoffWait 4] = [2, 4, 8, 16] := by
  constructor <;> simp [mainRetryRun, backoffWait]

/-- C4: for a registry with distinct keys, the detected url sequence
contains exactly the registry keys occurring as literal substrings of the
text, in registry iteration order (it is a sublist of the key sequence),
and without duplicates. -/
theorem found_urls_characterization (db : Registry) (text : String)
    (h : (dictKeys db).Nodup) :
    (∀ u, u ∈ found_urls db text ↔ u ∈ dictKeys db ∧ strContains text u = true) ∧
    (found_urls db text).Sublist (dictKeys db) ∧
    (found_urls db text).Nodup := by
  refine ⟨fun u => ?_, List.filter_sublist _, h.filter _⟩
  simp [found_urls, List.mem_filter]

theorem found_urls_characterization_witness :
    found_urls [("https://a.com", []), ("https://b.com", [])] "go https://b.com now"
      = ["https://b.com"] ∧
    (found_urls [("https://a.com", []), ("https://b.com", [])] "go https://b.com now").Nodup := by
  have h := found_urls_characterization
    [("https://a.com", []), ("https://b.com", [])] "go https://b.com now" (by decide)
  exact ⟨by decide, h.2.2⟩

/-- C5: on the spec's example the detector returns
matchedURLs = [https://x.com] and extractedCode = "ABC123"; in general the
extraction is the leftmost match of the `code[:\s]* + [A-Za-z0-9@_-]+`
pattern (capture group 2 of the first matching start position), and is
unset exactly when no start position matches. -/
theorem extract_code_spec (text : String) :
    (found_urls [("https://x.com", [("label", "X")])]
        "Join now! code: ABC123 https://x.com" = ["https://x.com"] ∧
      extract_code "Join now! code: ABC123 https://x.com" = some "ABC123") ∧
    (extract_code text = none ↔ ∀ i, tryMatch (text.data.drop i) = none) ∧
    (∀ code, extract_code text = some code →
      ∃ i, tryMatch (text.data.drop i) = some code.data ∧
        ∀ j, j < i → tryMatch (text.data.drop j) = none) := by
  refine ⟨⟨by decide, by decide⟩, ?_, ?_⟩
  · rw [extract_code, Option.map_eq_none']
    exact searchCode_eq_none text.data
  · intro code hc
    rw [extract_code] at hc
    obtain ⟨r, hr, hmk⟩ := Option.map_eq_some'.mp hc
    obtain ⟨i, hi, hj⟩ := searchCode_eq_some text.data r hr
    exact ⟨i, by rw [← hmk]; exact hi, hj⟩

/-- C7: a mutating command (`/addurl`, `/addurls`, `/delurl`, `/delurls`,
`/setbutton`) from a sender outside the admin allow-list yields exactly the
fixed denial reply, an unchanged registry, and no save — uniformly in the
message text, so the authorization check precedes any argument parsing. -/
theorem admin_gate (admin_ids : List Int) (sender : Int) (text : String)
    (db : Registry) (h : is_admin admin_ids sender = false) :
    cmd_addurl admin_ids sender text db = (db, [Effect.reply denialMsg]) ∧
    cmd_addurls admin_ids sender text db = (db, [Effect.reply denialMsg]) ∧
    cmd_delurl admin_ids sender text db = (db, [Effect.reply denialMsg]) ∧
    cmd_delurls admin_ids sender text db = (db, [Effect.reply denialMsg]) ∧
    cmd_setbutton admin_ids sender text db = (db, [Effect.reply denialMsg]) := by
  simp [cmd_addurl, cmd_addurls, cmd_delurl, cmd_delurls, cmd_setbutton, h]

theorem admin_gate_witness :
    is_admin [(1 : Int)] 2 = false ∧
    cmd_delurl [(1 : Int)] 2 "/delurl https://a.com" [("https://a.com", [])] =
      ([("https://a.com", [])], [Effect.reply denialMsg]) :=
  ⟨by decide,
    (admin_gate [(1 : Int)] 2 "/delurl https://a.com" [("https://a.com", [])]
      (by decide)).2.2.1⟩

/-- C9 counterexample: with a registry entry whose label field is present
but empty, the button label is the empty string, not the fallback
"Sign Up Now" — `.get("label", default)` falls back only on a missing key. -/
theorem build_keyboard_empty_label :
    build_keyboard [("https://x.com", [("label", "")])] ["https://x.com"]
      = some [("", "https://x.com")] ∧ ("" : String) ≠ "Sign Up Now" := by decide

/-- C9 amended: buttons are built from the matched urls in detector order,
each paired with the registry's current label; the fallback "Sign Up Now"
is used exactly when the label field is unset (an empty label is used
as-is). -/
theorem build_keyboard_amended (db : Registry) (urls : List String)
    (h : ∀ u ∈ urls, (lookupA db u).isSome = true) :
    ∃ bs, build_keyboard db urls = some bs ∧ bs.map Prod.snd = urls ∧
      ∀ p ∈ bs, ∀ e, lookupA db p.2 = some e →
        (lookupA e "label" = none → p.1 = "Sign Up Now") ∧
        (∀ s, lookupA e "label" = some s → p.1 = s) := by
  revert h
  induction urls with
  | nil => exact fun _ => ⟨[], rfl, rfl, by simp⟩
  | cons u rest ih =>
    intro h
    obtain ⟨e, he⟩ : ∃ e, lookupA db u = some e :=
      Option.isSome_iff_exists.mp (h u (by simp))
    obtain ⟨bs, hbs, hmap, hprop⟩ := ih (fun v hv => h v (by simp [hv]))
    refine ⟨((lookupA e "label").getD "Sign Up Now", u) :: bs, ?_, by simp [hmap], ?_⟩
    · simp [build_keyboard, he, hbs]
    · intro p hp e2 he2
      rcases List.mem_cons.mp hp with hhead | htail
      · subst hhead
        rw [he] at he2
        injection he2 with h3
        subst h3
        exact ⟨fun hne => by simp [hne], fun s hs => by simp [hs]⟩
      · exact hprop p htail e2 he2

theorem build_keyboard_amended_witness :
    build_keyboard [("https://x.com", [("label", "X")]), ("https://y.com", [])]
        ["https://y.com", "https://x.com"]
      = some [("Sign Up Now", "https://y.com"), ("X", "https://x.com")] := by
  have h := build_keyboard_amended
    [("https://x.com", [("label", "X")]), ("https://y.com", [])]
    ["https://y.com", "https://x.com"] (by decide)
  decide

/-- C10: the auto-format pipeline never mutates the registry and never
persists: for every registry, message text and edit outcome, `auto_edit`
returns the registry unchanged and produces no save effect. -/
theorem auto_edit_frame (db : Registry) (text : String) (edit_ok : Bool) :
    (auto_edit db text edit_ok).1 = db ∧
    ∀ e ∈ (auto_edit db text edit_ok).2, e.isSave = false := by
  unfold auto_edit
  repeat' first
    | exact ⟨rfl, by simp [Effect.isSave]⟩
    | split
    | dsimp only

/-- C8 counterexample: the claim says every send is at most 4000
characters, but a single entry line longer than the limit becomes its own
oversized send: with one 4100-character url the second send has 4108
characters.  (Lines are still never split.) -/
theorem listurls_oversized_chunk :
    ∃ s, Effect.reply s ∈ (cmd_listurls [(1 : Int)] 1 cexDb).2 ∧
      4000 < s.length := by
  have hu : escape_html longA = longA :=
    escape_html_replicate 4100 'a' (by decide) (by decide)
  have hulen : longA.length = 4100 := by
    have h1 : longA.length = (List.replicate 4100 'a').length := rfl
    rw [h1, List.length_replicate]
  have hllen : (listLine 1 longA [("label", "L")]).length = 4108 := by
    rw [listLine_label_length 1 longA "L" (by decide) hu, hulen]
    decide
  have hlne : listLine 1 longA [("label", "L")] ≠ "" :=
    strNe_empty_of_length (by rw [hllen]; omega)
  have hlines : listLines cexDb = [listLine 1 longA [("label", "L")]] := rfl
  have hhd : (listHeader cexDb).length = 25 := by decide
  have hbig : 4000 < (listHeader cexDb ++ strConcat (listLines cexDb)).length := by
    rw [hlines, strConcat_singleton, strLength_append, hhd, hllen]
    omega
  have hcond : 4000 < (listHeader cexDb ++ listLine 1 longA [("label", "L")]).length := by
    rw [strLength_append, hhd, hllen]
    omega
  have hchunks : listChunks cexDb
      = [listHeader cexDb, listLine 1 longA [("label", "L")]] := by
    rw [listChunks, hlines]
    rw [chunkLoop, if_pos hcond, chunkLoop, if_neg hlne]
  have hadm : is_admin [(1 : Int)] 1 = true := by decide
  have hnil : ¬cexDb = [] := by simp [cexDb]
  have hbig2 := hbig
  rw [strLength_append] at hbig2
  have heff : (cmd_listurls [(1 : Int)] 1 cexDb).2
      = (listChunks cexDb).map Effect.reply := by
    simp [cmd_listurls, hadm, hnil, hbig2]
  refine ⟨listLine 1 longA [("label", "L")], ?_, by rw [hllen]; omega⟩
  rw [heff, hchunks]
  simp

/-- C8 amended: once the rendered listing exceeds 4000 characters the
handler sends the chunk sequence, at least two sends, broken strictly at
line boundaries (each send is the concatenation of consecutive whole
lines); every send stays within 4000 characters provided the header and
every single entry line do — a longer line becomes its own oversized send,
as the counterexample shows. -/
theorem cmd_listurls_chunking (admin_ids : List Int) (sender : Int) (db : Registry)
    (hadm : is_admin admin_ids sender = true) (hdb : db ≠ [])
    (hbig : 4000 < (listHeader db ++ strConcat (listLines db)).length)
    (hhead : (listHeader db).length ≤ 4000)
    (hline : ∀ l ∈ listLines db, l.length ≤ 4000) :
    (cmd_listurls admin_ids sender db).2 = (listChunks db).map Effect.reply ∧
    2 ≤ (listChunks db).length ∧
    (∀ c ∈ listChunks db, c.length ≤ 4000) ∧
    ∃ groups : List (List String),
      listChunks db = groups.map strConcat ∧
      groups.flatten = listHeader db :: listLines db ∧
      ∀ g ∈ groups, g ≠ [] := by
  have hlne : ∀ l ∈ listLines db, l ≠ "" := by
    intro l hm
    obtain ⟨p, _, rfl⟩ := List.mem_map.mp hm
    exact strNe_empty_of_length (listLine_length_pos _ _ _)
  have hbig2 := hbig
  rw [strLength_append] at hbig2
  refine ⟨?_, ?_, ?_, ?_⟩
  · simp [cmd_listurls, hadm, hdb, hbig2]
  · exact chunkLoop_two (listLines db) (listHeader db) (listHeader_ne_empty db)
      hlne hhead hline hbig
  · exact chunkLoop_bounded (listLines db) (listHeader db) hhead hline
  · exact chunkLoop_groups (listLines db) (listHeader db) (listHeader_ne_empty db) hlne

theorem cmd_listurls_chunking_witness :
    2 ≤ (listChunks witDb).length ∧ ∀ c ∈ listChunks witDb, c.length ≤ 4000 := by
  have hb : escape_html medB = medB :=
    escape_html_replicate 2500 'b' (by decide) (by decide)
  have hcesc : escape_html medC = medC :=
    escape_html_replicate 2500 'c' (by decide) (by decide)
  have hblen : medB.length = 2500 := by
    have h1 : medB.length = (List.replicate 2500 'b').length := rfl
    rw [h1, List.length_replicate]
  have hclen : medC.length = 2500 := by
    have h1 : medC.length = (List.replicate 2500 'c').length := rfl
    rw [h1, List.length_replicate]
  have hl1 : (listLine 1 medB [("label", "L")]).length = 2508 := by
    rw [listLine_label_length 1 medB "L" (by decide) hb, hblen]
    decide
  have hl2 : (listLine 2 medC [("label", "M")]).length = 2508 := by
    rw [listLine_label_length 2 medC "M" (by decide) hcesc, hclen]
    decide
  have hlines : listLines witDb
      = [listLine 1 medB [("label", "L")], listLine 2 medC [("label", "M")]] := rfl
  have hhd : (listHeader witDb).length = 25 := by decide
  have hbig : 4000 < (listHeader witDb ++ strConcat (listLines witDb)).length := by
    rw [hlines, strConcat, strConcat_singleton, strLength_append, strLength_append,
      hhd, hl1, hl2]
    omega
  have hline : ∀ l ∈ listLines witDb, l.length ≤ 4000 := by
    rw [hlines]
    intro l hm
    rcases List.mem_cons.mp hm with rfl | hm2
    · rw [hl1]; omega
    · rcases List.mem_cons.mp hm2 with rfl | hm3
      · rw [hl2]; omega
      · simp at hm3
  have h := cmd_listurls_chunking [(1 : Int)] 1 witDb (by decide)
    (by simp [witDb]) hbig (by rw [hhd]; omega) hline
  exact ⟨h.2.1, h.2.2.1⟩

/-- C6: an admin `/addurls` batch with at least one input line processes
each line independently: the final registry is the left fold of each
line's individual effect over the batch (a malformed line contributes
nothing and does not disturb later lines), the per-line error list is a
function of the lines alone with 1-based numbering, and exactly one save
of the final registry happens if and only if at least one line is valid.
-/
theorem cmd_addurls_batch (admin_ids : List Int) (sender : Int) (text : String)
    (db : Registry) (hadm : is_admin admin_ids sender = true)
    (hlines : (pySplitlines text).drop 1 ≠ []) :
    (cmd_addurls admin_ids sender text db).1
        = ((pySplitlines text).drop 1).foldl applyAddLine db ∧
    ((cmd_addurls admin_ids sender text db).2.filter Effect.isSave)
        = (if ((pySplitlines text).drop 1).any (fun l => (parseAddLine l).isSome)
            then [Effect.save (((pySplitlines text).drop 1).foldl applyAddLine db)]
            else []) ∧
    (addurlsLoop db 1 ((pySplitlines text).drop 1)).2.2
        = addErrorsSpec 1 ((pySplitlines text).drop 1) := by
  have hloop := addurlsLoop_eq ((pySplitlines text).drop 1) db 1
  simp only [List.drop_one] at hloop hlines
  refine ⟨?_, ?_, ?_⟩
  · simp [cmd_addurls, hadm, hlines, hloop]
  · by_cases hany : ((pySplitlines text).tail).any
        (fun l => (parseAddLine l).isSome) = true
    · have hne : ¬(((pySplitlines text).tail).filterMap (fun l => (parseAddLine l).map
          (fun p => escape_html p.1 ++ " → " ++ escape_html p.2)) = []) := by
        rw [addurls_added_empty_iff, hany]
        simp
      simp [cmd_addurls, hadm, hlines, hloop, hne, hany, Effect.isSave]
    · have hfalse : ((pySplitlines text).tail).any
          (fun l => (parseAddLine l).isSome) = false := by
        revert hany
        cases ((pySplitlines text).tail).any (fun l => (parseAddLine l).isSome) <;> simp
      have heq := (addurls_added_empty_iff ((pySplitlines text).tail)).mpr hfalse
      simp [cmd_addurls, hadm, hlines, hloop, heq, hfalse, Effect.isSave]
  · simp only [List.drop_one]
    rw [hloop]

theorem cmd_addurls_batch_witness :
    (cmd_addurls [(1 : Int)] 1 "/addurls\nGood https://g.com\nbadline" []).1
      = [("https://g.com", [("label", "Good")])] ∧
    ((cmd_addurls [(1 : Int)] 1 "/addurls\nGood https://g.com\nbadline" []).2.filter
        Effect.isSave)
      = [Effect.save [("https://g.com", [("label", "Good")])]] := by
  have h := cmd_addurls_batch [(1 : Int)] 1 "/addurls\nGood https://g.com\nbadline" []
    (by decide) (by decide)
  exact ⟨h.1.trans (by decide), h.2.1.trans (by decide)⟩

/-! ## JSON round trip: the parser recovers exactly what the writer emits -/

theorem hexVal_hexDigitL (n : Nat) (h : n < 16) : hexVal (hexDigitL n) = some n := by
  interval_cases n <;> decide

theorem parseStrBody_round (s : List Char) : ∀ rest : List Char,
    parseStrBody (jsonEscape s ++ ('"' :: rest)) = some (s, rest) := by
  induction s with
  | nil =>
    intro rest
    rw [jsonEscape, List.nil_append, parseStrBody.eq_def]
    simp
  | cons c cs ih =>
    intro rest
    rw [jsonEscape, List.append_assoc]
    by_cases h1 : c = '"'
    · subst h1; rw [jsonEscapeChar]; simp only [if_pos rfl, List.cons_append, List.nil_append]
      rw [parseStrBody.eq_def]; simp [ih]
    · by_cases h2 : c = '\\'
      · subst h2; rw [jsonEscapeChar]
        simp only [List.cons_append, List.nil_append]
        rw [parseStrBody.eq_def]; simp [ih]
      · by_cases h3 : c = '\x08'
        · subst h3; rw [jsonEscapeChar]
          simp only [List.cons_append, List.nil_append]
          rw [parseStrBody.eq_def]; simp [ih]
        · by_cases h4 : c = '\x0c'
          · subst h4; rw [jsonEscapeChar]
            simp only [List.cons_append, List.nil_append]
            rw [parseStrBody.eq_def]; simp [ih]
          · by_cases h5 : c = '\n'
            · subst h5; rw [jsonEscapeChar]
              simp only [List.cons_append, List.nil_append]
              rw [parseStrBody.eq_def]; simp [ih]
            · by_cases h6 : c = '\r'
              · subst h6; rw [jsonEscapeChar]
                simp only [List.cons_append, List.nil_append]
                rw [parseStrBody.eq_def]; simp [ih]
              · by_cases h7 : c = '\t'
                · subst h7; rw [jsonEscapeChar]
                  simp only [List.cons_append, List.nil_append]
                  rw [parseStrBody.eq_def]; simp [ih]
                · by_cases h8 : c.toNat < 32
                  · rw [jsonEscapeChar]
                    rw [if_neg h1, if_neg h2, if_neg h3, if_neg h4, if_neg h5,
                      if_neg h6, if_neg h7, if_pos h8]
                    simp only [List.cons_append, List.nil_append]
                    have hdiv : c.toNat / 16 < 16 :=
                      (Nat.div_lt_iff_lt_mul (by omega)).mpr (by omega)
                    have hmod : c.toNat % 16 < 16 := Nat.mod_lt _ (by omega)
                    have e0 : hexVal '0' = some 0 := by decide
                    rw [parseStrBody.eq_def]
                    simp [e0, hexVal_hexDigitL _ hdiv, hexVal_hexDigitL _ hmod, ih,
                      Nat.div_add_mod]
                  · rw [jsonEscapeChar]
                    rw [if_neg h1, if_neg h2, if_neg h3, if_neg h4, if_neg h5,
                      if_neg h6, if_neg h7, if_neg h8]
                    simp only [List.cons_append, List.nil_append]
                    rw [parseStrBody.eq_def]
                    simp [h1, h2, h8, ih]

theorem parseJString_round (s : String) (rest : List Char) :
    parseJString (jsonStr s ++ rest) = some (s, rest) := by
  rw [jsonStr]
  simp only [List.cons_append, List.append_assoc, List.singleton_append]
  rw [parseJString.eq_def]
  simp [parseStrBody_round]

theorem skipWs_nl (l : List Char) : skipWs ('\n' :: l) = skipWs l := by
  rw [skipWs.eq_def]; simp [jsonWsP]

theorem skipWs_space (l : List Char) : skipWs (' ' :: l) = skipWs l := by
  rw [skipWs.eq_def]; simp [jsonWsP]

theorem skipWs_colon (l : List Char) : skipWs (':' :: l) = ':' :: l := by
  rw [skipWs.eq_def]; simp [jsonWsP]

theorem skipWs_comma (l : List Char) : skipWs (',' :: l) = ',' :: l := by
  rw [skipWs.eq_def]; simp [jsonWsP]

theorem skipWs_rbrace (l : List Char) : skipWs ('}' :: l) = '}' :: l := by
  rw [skipWs.eq_def]; simp [jsonWsP]

theorem skipWs_lbrace (l : List Char) : skipWs ('{' :: l) = '{' :: l := by
  rw [skipWs.eq_def]; simp [jsonWsP]

theorem skipWs_jsonStr (s : String) (rest : List Char) :
    skipWs (jsonStr s ++ rest) = jsonStr s ++ rest := by
  rw [jsonStr]
  simp only [List.cons_append]
  rw [skipWs.eq_def]; simp [jsonWsP]

theorem skipWs_item (p : String × String) (X : List Char) :
    skipWs (renderEntryItem p ++ X) = renderEntryItem p ++ X := by
  have h : renderEntryItem p ++ X = jsonStr p.1 ++ ((':' :: ' ' :: jsonStr p.2) ++ X) := by
    rw [renderEntryItem, List.append_assoc]
  rw [h, skipWs_jsonStr]

theorem take1_item (p : String × String) (X : List Char) :
    (renderEntryItem p ++ X).take 1 = ['"'] := rfl

theorem parseEntryPairs_ws (w : Char) (hw : jsonWsP w = true) (f : Nat) (i : List Char) :
    parseEntryPairs f (w :: i) = parseEntryPairs f i := by
  cases f with
  | zero => rfl
  | succ f2 =>
    have h : skipWs (w :: i) = skipWs i := by rw [skipWs.eq_def]; simp [hw]
    simp only [parseEntryPairs]
    rw [h]

theorem parseEntryPairs_round (qs : List (String × String)) :
    ∀ (p : String × String) (fuel : Nat) (tail : List Char), qs.length < fuel →
    parseEntryPairs fuel
        (renderEntryItem p ++ (renderEntryItems qs ++ ('\n' :: ' ' :: ' ' :: '}' :: tail)))
      = some (p :: qs, tail) := by
  induction qs with
  | nil =>
    intro p fuel tail hf
    obtain ⟨f, rfl⟩ : ∃ f, fuel = f + 1 := ⟨fuel - 1, by omega⟩
    simp only [renderEntryItems, List.nil_append]
    rw [renderEntryItem, List.append_assoc]
    simp [parseEntryPairs, skipWs_jsonStr, parseJString_round, skipWs_colon, skipWs_space,
      skipWs_nl, skipWs_rbrace]
  | cons q qs ih =>
    intro p fuel tail hf
    obtain ⟨f, rfl⟩ : ∃ f, fuel = f + 1 := ⟨fuel - 1, by omega⟩
    have hih := ih q f tail (by simp at hf; omega)
    rw [renderEntryItems, renderEntryItem, List.append_assoc]
    simp [parseEntryPairs, skipWs_jsonStr, parseJString_round, skipWs_colon, skipWs_space,
      skipWs_comma, parseEntryPairs_ws, jsonWsP, hih]



theorem skipWs_renderEntry (e : Entry) (X : List Char) :
    skipWs (renderEntry e ++ X) = renderEntry e ++ X := by
  cases e with
  | nil =>
    rw [renderEntry]
    simp only [List.cons_append]
    rw [skipWs.eq_def]; simp [jsonWsP]
  | cons p qs =>
    rw [renderEntry]
    simp only [List.cons_append]
    rw [skipWs.eq_def]; simp [jsonWsP]

theorem parseEntryObj_round (e : Entry) (fuel : Nat) (tail : List Char)
    (hf : e.length ≤ fuel) :
    parseEntryObj fuel (renderEntry e ++ tail) = some (dictFromPairs e, tail) := by
  cases e with
  | nil =>
    rw [renderEntry]
    simp [parseEntryObj, skipWs_rbrace, dictFromPairs]
  | cons p qs =>
    have hr := parseEntryPairs_round qs p fuel tail (by simp at hf; omega)
    rw [renderEntry]
    simp only [List.cons_append, List.append_assoc, List.singleton_append]
    simp [parseEntryObj, skipWs_nl, skipWs_space, skipWs_item, take1_item, hr]

theorem skipWs_regItem (p : String × Entry) (X : List Char) :
    skipWs (renderRegItem p ++ X) = renderRegItem p ++ X := by
  have h : renderRegItem p ++ X = jsonStr p.1 ++ ((':' :: ' ' :: renderEntry p.2) ++ X) := by
    rw [renderRegItem, List.append_assoc]
  rw [h, skipWs_jsonStr]

theorem take1_regItem (p : String × Entry) (X : List Char) :
    (renderRegItem p ++ X).take 1 = ['"'] := rfl

theorem parseRegPairs_ws (w : Char) (hw : jsonWsP w = true) (ef f : Nat) (i : List Char) :
    parseRegPairs ef f (w :: i) = parseRegPairs ef f i := by
  cases f with
  | zero => rfl
  | succ f2 =>
    have h : skipWs (w :: i) = skipWs i := by rw [skipWs.eq_def]; simp [hw]
    simp only [parseRegPairs]
    rw [h]

theorem parseRegPairs_round (qs : List (String × Entry)) :
    ∀ (p : String × Entry) (efuel fuel : Nat) (tail : List Char), qs.length < fuel →
    p.2.length ≤ efuel → (∀ q ∈ qs, q.2.length ≤ efuel) →
    parseRegPairs efuel fuel
        (renderRegItem p ++ (renderRegItems qs ++ ('\n' :: '}' :: tail)))
      = some ((p.1, dictFromPairs p.2) :: qs.map (fun q => (q.1, dictFromPairs q.2)), tail) := by
  induction qs with
  | nil =>
    intro p efuel fuel tail hf hp _
    obtain ⟨f, rfl⟩ : ∃ f, fuel = f + 1 := ⟨fuel - 1, by omega⟩
    have hobj := parseEntryObj_round p.2 efuel ('\n' :: '}' :: tail) hp
    simp only [renderRegItems, List.nil_append]
    rw [renderRegItem, List.append_assoc]
    simp [parseRegPairs, skipWs_jsonStr, parseJString_round, skipWs_colon, skipWs_space,
      skipWs_renderEntry, hobj, skipWs_nl, skipWs_rbrace]
  | cons q qs ih =>
    intro p efuel fuel tail hf hp hqs
    obtain ⟨f, rfl⟩ : ∃ f, fuel = f + 1 := ⟨fuel - 1, by omega⟩
    have hih := ih q efuel f tail (by simp at hf; omega)
      (hqs q (by simp)) (fun r hr => hqs r (by simp [hr]))
    have hobj := parseEntryObj_round p.2 efuel
      (',' :: '\n' :: ' ' :: ' ' ::
        (renderRegItem q ++ (renderRegItems qs ++ ('\n' :: '}' :: tail)))) hp
    rw [renderRegItems, renderRegItem, List.append_assoc]
    simp [parseRegPairs, skipWs_jsonStr, parseJString_round, skipWs_colon, skipWs_space,
      skipWs_renderEntry, hobj, skipWs_comma, skipWs_nl, parseRegPairs_ws, jsonWsP, hih]



theorem renderEntryItems_len (qs : List (String × String)) :
    qs.length ≤ (renderEntryItems qs).length := by
  induction qs with
  | nil => simp [renderEntryItems]
  | cons q qs ih =>
    rw [renderEntryItems]
    simp only [List.length_cons, List.length_append]
    omega

theorem renderEntry_len (e : Entry) : e.length ≤ (renderEntry e).length := by
  cases e with
  | nil => simp [renderEntry]
  | cons p qs =>
    rw [renderEntry]
    have h := renderEntryItems_len qs
    simp only [List.length_cons, List.length_append]
    omega

theorem renderRegItems_len (qs : List (String × Entry)) :
    qs.length ≤ (renderRegItems qs).length := by
  induction qs with
  | nil => simp [renderRegItems]
  | cons q qs ih =>
    rw [renderRegItems]
    simp only [List.length_cons, List.length_append]
    omega

theorem renderReg_len (R : Registry) : R.length ≤ (renderReg R).length := by
  cases R with
  | nil => simp [renderReg]
  | cons p rest =>
    rw [renderReg]
    have h := renderRegItems_len rest
    simp only [List.length_cons, List.length_append]
    omega

theorem renderRegItem_entry_len (p : String × Entry) :
    p.2.length ≤ (renderRegItem p).length := by
  rw [renderRegItem]
  have h := renderEntry_len p.2
  simp only [List.length_append, List.length_cons]
  omega

theorem renderRegItems_entry_len (qs : List (String × Entry)) :
    ∀ q ∈ qs, q.2.length ≤ (renderRegItems qs).length := by
  induction qs with
  | nil => simp
  | cons q qs ih =>
    intro r hr
    rw [renderRegItems]
    simp only [List.length_cons, List.length_append]
    rcases List.mem_cons.mp hr with rfl | hm
    · have := renderRegItem_entry_len r
      omega
    · have := ih r hm
      omega

theorem renderReg_entry_len (R : Registry) :
    ∀ p ∈ R, p.2.length ≤ (renderReg R).length := by
  cases R with
  | nil => simp
  | cons p rest =>
    intro q hq
    rw [renderReg]
    simp only [List.length_cons, List.length_append]
    rcases List.mem_cons.mp hq with rfl | hm
    · have := renderRegItem_entry_len q
      omega
    · have := renderRegItems_entry_len rest q hm
      omega

theorem dictInsert_notMem {α : Type} (m : List (String × α)) (k : String) (v : α)
    (h : k ∉ dictKeys m) : dictInsert m k v = m ++ [(k, v)] := by
  induction m with
  | nil => rfl
  | cons p rest ih =>
    rw [dictInsert]
    rw [if_neg ?hne]
    · rw [ih (fun hm => h (by simp [dictKeys] at hm ⊢; exact Or.inr hm))]
      simp
    · intro he
      exact h (by simp [dictKeys, he])

theorem foldl_dictInsert {α : Type} (ps : List (String × α)) :
    ∀ acc : List (String × α), (dictKeys ps).Nodup →
    (∀ k ∈ dictKeys ps, k ∉ dictKeys acc) →
    ps.foldl (fun d q => dictInsert d q.1 q.2) acc = acc ++ ps := by
  induction ps with
  | nil => intro acc _ _; simp
  | cons p rest ih =>
    intro acc hnd hdisj
    have hcons : dictKeys (p :: rest) = p.1 :: dictKeys rest := by simp [dictKeys]
    have hnd2 : (dictKeys rest).Nodup := (List.nodup_cons.mp (hcons ▸ hnd)).2
    have hhead : p.1 ∉ dictKeys rest := (List.nodup_cons.mp (hcons ▸ hnd)).1
    have hdisj2 : ∀ k ∈ dictKeys rest, k ∉ dictKeys (acc ++ [(p.1, p.2)]) := by
      intro k hk hmem
      rw [dictKeys, List.map_append] at hmem
      rcases List.mem_append.mp hmem with hm | hm
      · exact hdisj k (by rw [hcons]; simp [hk]) hm
      · have hkp : k = p.1 := by simpa using hm
        exact hhead (hkp ▸ hk)
    rw [List.foldl_cons, dictInsert_notMem acc p.1 p.2 (hdisj p.1 (by rw [hcons]; simp)),
      ih (acc ++ [(p.1, p.2)]) hnd2 hdisj2]
    simp

theorem dictFromPairs_nodup {α : Type} (ps : List (String × α))
    (h : (dictKeys ps).Nodup) : dictFromPairs ps = ps := by
  rw [dictFromPairs]
  rw [foldl_dictInsert ps [] h (by simp [dictKeys])]
  simp



theorem load_save_round (R : Registry) (h1 : (dictKeys R).Nodup)
    (h2 : ∀ p ∈ R, (dictKeys p.2).Nodup) :
    load_links (save_links R) = R := by
  cases R with
  | nil => decide
  | cons p rest =>
    have hdata : (save_links (p :: rest)).data = renderReg (p :: rest) := rfl
    rw [load_links, hdata]
    obtain ⟨n, hn_eq⟩ : ∃ n, (renderReg (p :: rest)).length = n := ⟨_, rfl⟩
    rw [hn_eq]
    have hlen : rest.length < n := by
      have h := renderReg_len (p :: rest)
      rw [hn_eq] at h
      simp at h
      omega
    have hple : p.2.length ≤ n := by
      rw [← hn_eq]
      exact renderReg_entry_len (p :: rest) p (by simp)
    have hqle : ∀ q ∈ rest, q.2.length ≤ n := by
      intro q hq
      rw [← hn_eq]
      exact renderReg_entry_len (p :: rest) q (by simp [hq])
    have hround := parseRegPairs_round rest p n n [] hlen hple hqle
    have hinner : ((p.1, dictFromPairs p.2) ::
        rest.map (fun q => (q.1, dictFromPairs q.2))) = p :: rest := by
      have hmap : ∀ q ∈ rest, (q.1, dictFromPairs q.2) = q := fun q hq => by
        rw [dictFromPairs_nodup q.2 (h2 q (by simp [hq]))]
      rw [dictFromPairs_nodup p.2 (h2 p (by simp))]
      rw [List.map_congr_left hmap]
      simp
    conv_lhs => rw [renderReg]
    rw [skipWs_lbrace]
    simp only [parseRegObj]
    rw [List.append_assoc, skipWs_nl, skipWs_space, skipWs_space, skipWs_regItem,
      take1_regItem, if_neg (by decide : ¬(['\"'] = ['}'])), hround, Option.map_some']
    dsimp only
    rw [hinner, dictFromPairs_nodup (p :: rest) h1]
    rw [if_pos (show skipWs [] = [] from rfl)]

/-- C3: for every registry with distinct urls and distinct entry keys
(guaranteed by Python dict semantics), re-serialization is idempotent:
`save(load(save R))` is byte-for-byte `save R`, because `load (save R)`
recovers `R` exactly; moreover every character at or above 0x20 other than
the quote and backslash — all non-ASCII characters included — is written
unescaped, and the writer indents with `indent=2`. -/
theorem save_load_save_idempotent (R : Registry)
    (h1 : (dictKeys R).Nodup) (h2 : ∀ p ∈ R, (dictKeys p.2).Nodup) :
    save_links (load_links (save_links R)) = save_links R ∧
    load_links (save_links R) = R ∧
    (∀ c : Char, 32 ≤ c.toNat → c ≠ '"' → c ≠ '\\' → jsonEscapeChar c = [c]) := by
  have h := load_save_round R h1 h2
  refine ⟨by rw [h], h, ?_⟩
  intro c hc hq hb
  have h3 : c ≠ '\x08' := fun he => by subst he; exact absurd hc (by decide)
  have h4 : c ≠ '\x0c' := fun he => by subst he; exact absurd hc (by decide)
  have h5 : c ≠ '\n' := fun he => by subst he; exact absurd hc (by decide)
  have h6 : c ≠ '\r' := fun he => by subst he; exact absurd hc (by decide)
  have h7 : c ≠ '\t' := fun he => by subst he; exact absurd hc (by decide)
  rw [jsonEscapeChar, if_neg hq, if_neg hb, if_neg h3, if_neg h4, if_neg h5, if_neg h6,
    if_neg h7, if_neg (by omega)]

theorem save_load_save_idempotent_witness :
    save_links (load_links (save_links [("https://x.com", [("label", "X")])]))
      = save_links [("https://x.com", [("label", "X")])] ∧
    load_links (save_links [("https://x.com", [("label", "X")])])
      = [("https://x.com", [("label", "X")])] := by
  have h := save_load_save_idempotent [("https://x.com", [("label", "X")])]
    (by decide) (by decide)
  exact ⟨h.1, h.2.1⟩

end GambleCodez
